import Mathlib

/-!
Shallow embedding of `carsus/io/vald/vald.py` (class `VALDReader`).

The pipeline is: fetch a text buffer, extract data rows with the compiled
pattern `'[a-zA-Z]+ \d+',[\s*-?\d+[\.\d+]+,]*`, join the matches with
newlines, parse them as a 13-column CSV (`pandas.read_csv` with `names`
and `index_col=False`), and split the `elm_ion` column into `molecule`
and `ion_charge`.

Python-level notes reflected in the model (for ASCII inputs):
* in the pattern, the character class closes at the first unescaped `]`,
  so the class is `\s`, the range `*-?` (which already contains the
  digits, `+`, `,`, `-`, `.` and `/`), and `[`; the trailing `+,]*` is
  then "one or more class characters, a comma, zero or more `]`";
* `re.findall` scans left to right, keeping non-overlapping leftmost
  matches; the greedy `C+` backtracks to the last comma of the maximal
  class-character run.
-/

namespace Carsus

/-- Errors surfaced by the pandas calls used in `vald.py`:
`EmptyDataError` from `read_csv` on an empty buffer, a tokenizing error
for over-long rows, `KeyError` for a missing column, `ValueError` for a
column-assignment arity mismatch, and a storage error from `HDFStore`. -/
inductive PdError
  | emptyData
  | tokenizeError
  | keyError
  | valueError
  | storageError
deriving DecidableEq, Repr

/-- ASCII whitespace recognized by `\s` in a Python pattern
(the model covers ASCII buffers). -/
def isPySpace (c : Char) : Bool :=
  c = ' ' || c = '\t' || c = '\n' || c = '\r' || c = '\x0b' || c = '\x0c'

/-- Membership in the pattern's character class `[\s*-?\d+[\.`:
whitespace, the ASCII range `*`..`?` (which contains the digits and
`+ , - . /`), and `[`. -/
def isClassChar (c : Char) : Bool :=
  isPySpace c || ('*' ≤ c && c ≤ '?') || c = '['

/-- `[a-zA-Z]` of the pattern. -/
def isAsciiLetter (c : Char) : Bool :=
  ('a' ≤ c && c ≤ 'z') || ('A' ≤ c && c ≤ 'Z')

/-- `\d` of the pattern, for ASCII buffers. -/
def isDigitChar (c : Char) : Bool :=
  '0' ≤ c && c ≤ '9'

/-- Split a character list on a separator character; `n` separators
yield `n+1` (possibly empty) pieces, like Python `str.split(sep)`. -/
def splitOnChar (sep : Char) : List Char → List (List Char)
  | [] => [[]]
  | c :: cs =>
    if c = sep then [] :: splitOnChar sep cs
    else
      match splitOnChar sep cs with
      | [] => [[c]]
      | l :: ls => (c :: l) :: ls

/-- The largest index `k ≥ 1` with `run[k] = ','` — the position at
which the greedy `C+` of `C+,]*` ends up placing the comma after
backtracking over the maximal class run `run`. -/
def lastCommaIdx (run : List Char) : Option Nat :=
  (List.range run.length).foldl
    (fun acc k => if 1 ≤ k ∧ run.get? k = some ',' then some k else acc) none

/-- Match the pattern right after its opening quote: `[a-zA-Z]+ \d+',`
followed by `[class]+,]*`. Returns the matched characters (without the
opening quote) and the rest of the input. -/
def matchAfterQuote (s1 : List Char) : Option (List Char × List Char) :=
  let letters := s1.takeWhile isAsciiLetter
  let r1 := s1.dropWhile isAsciiLetter
  if letters = [] then none else
  match r1 with
  | ' ' :: s2 =>
    let digits := s2.takeWhile isDigitChar
    let r2 := s2.dropWhile isDigitChar
    if digits = [] then none else
    match r2 with
    | '\'' :: ',' :: s3 =>
      let run := s3.takeWhile isClassChar
      match lastCommaIdx run with
      | none => none
      | some k =>
        let after := s3.drop (k + 1)
        let brackets := after.takeWhile (fun c => c = ']')
        let rest := after.dropWhile (fun c => c = ']')
        some (letters ++ ' ' :: digits ++ '\'' :: ',' :: (run.take k ++ ',' :: brackets),
              rest)
    | _ => none
  | _ => none

/-- Attempt the row pattern at the head of the input, as the regex
engine does at each scan position. -/
def matchAt : List Char → Option (List Char × List Char)
  | [] => none
  | c :: s1 =>
    if c = '\'' then
      match matchAfterQuote s1 with
      | none => none
      | some (m, rest) => some ('\'' :: m, rest)
    else none

/-- Fuel-indexed scan of `re.findall`: at each position try the pattern;
on success emit the match and continue after it, otherwise advance one
character. A fuel of `s.length` always suffices because every match
consumes at least one character. -/
def findallAux : Nat → List Char → List (List Char)
  | 0, _ => []
  | _ + 1, [] => []
  | fuel + 1, c :: cs =>
    match matchAt (c :: cs) with
    | some (m, rest) => m :: findallAux fuel rest
    | none => findallAux fuel cs

/-- `data_match.findall(buffer)` of `read_vald_raw`. -/
def findall (s : List Char) : List (List Char) :=
  findallAux s.length s

/-- A pandas DataFrame as used by `vald.py`: named columns over rows of
cells, a cell being `none` for `NaN` (an empty CSV field or padding). -/
structure Table where
  cols : List String
  rows : List (List (Option String))
deriving DecidableEq, Repr

/-- `VALDReader.vald_columns`. -/
def vald_columns : List String :=
  ["elm_ion", "wl_air", "log_gf", "e_low", "j_lo", "e_up", "j_up",
   "lande_lower", "lande_upper", "lande_mean", "rad", "stark", "waals"]

/-- The column list `parse_vald` produces from the fixed schema. -/
def parsed_columns : List String :=
  ["wl_air", "log_gf", "e_low", "j_lo", "e_up", "j_up",
   "lande_lower", "lande_upper", "lande_mean", "rad", "stark", "waals",
   "molecule", "ion_charge"]

/-- Universal-newline splitting as the pandas tokenizer does
(`\r\n`, `\r` or `\n` end a line). -/
def splitLinesCh : List Char → List (List Char)
  | [] => [[]]
  | '\r' :: '\n' :: rest => [] :: splitLinesCh rest
  | '\r' :: rest => [] :: splitLinesCh rest
  | '\n' :: rest => [] :: splitLinesCh rest
  | c :: rest =>
    match splitLinesCh rest with
    | [] => [[c]]
    | l :: ls => (c :: l) :: ls

/-- An empty CSV field reads as `NaN`, any other field as its text. -/
def toCell (f : List Char) : Option String :=
  if f = [] then none else some (String.mk f)

/-- Pad a row with `NaN` cells up to `n` columns. -/
def padCells (n : Nat) (row : List (Option String)) : List (Option String) :=
  row ++ List.replicate (n - row.length) none

/-- One parsed CSV row: split on commas, pad to the tokenizer's width,
then align to the `nameCount` leftmost named columns (truncating extra
trailing fields, padding missing ones with `NaN`). -/
def csvRow (nameCount width : Nat) (l : List Char) : List (Option String) :=
  padCells nameCount ((padCells width ((splitOnChar ',' l).map toCell)).take nameCount)

/-- `pandas.read_csv(StringIO(input), names=names, index_col=False)` on
comma-separated text without quoting or escapes — the matched VALD rows
can contain neither `"` nor `\`, so plain comma splitting is exact here.
Blank lines are skipped; an input with no remaining lines raises
`EmptyDataError`. The tokenizer fixes the field count of the table at
the first line's count; a longer line is a tokenizing error and shorter
lines are padded with `NaN`. With `index_col=False` the given names
label the leftmost fields, extra trailing fields being discarded (the
documented trailing-delimiter case), and with fewer fields than names
the missing named columns are `NaN`. -/
def read_csv (names : List String) (input : List Char) : Except PdError Table :=
  let lines := (splitLinesCh input).filter (fun l => l ≠ [])
  match lines with
  | [] => .error .emptyData
  | l0 :: _ =>
    let width := (splitOnChar ',' l0).length
    if lines.any (fun l => width < (splitOnChar ',' l).length) then
      .error .tokenizeError
    else
      .ok { cols := names, rows := lines.map (csvRow names.length width) }

/-- `"\n".join(matches)`. -/
def joinMatches (ms : List (List Char)) : List Char :=
  List.intercalate ['\n'] ms

/-- The pure core of `read_vald_raw` after the buffer has been fetched:
extract the rows with the pattern, join them with newlines, and parse
them as a 13-column CSV. -/
def rawFromBuffer (buf : List Char) : Except PdError Table :=
  read_csv vald_columns (joinMatches (findall buf))

/-- `.str.replace("'", "")` on one value: remove every single quote. -/
def stripQuotes (s : String) : String :=
  String.mk (s.toList.filter (fun c => c ≠ '\''))

/-- Read a column by name; `KeyError` when absent. `NaN` cells and cells
beyond a ragged row's end read as `NaN`. -/
def getColumn (t : Table) (name : String) : Except PdError (List (Option String)) :=
  match t.cols.indexOf? name with
  | none => .error .keyError
  | some i => .ok (t.rows.map (fun r => (r.get? i).join))

/-- Column assignment `t[name] = vals`: overwrite the column in place
when present, otherwise append it on the right, as pandas does. -/
def setColumn (t : Table) (name : String) (vals : List (Option String)) : Table :=
  match t.cols.indexOf? name with
  | some i => { t with rows := t.rows.zipWith (fun r v => r.set i v) vals }
  | none => { cols := t.cols ++ [name],
              rows := t.rows.zipWith (fun r v => r ++ [v]) vals }

/-- `del t[name]`; `KeyError` when absent. -/
def delColumn (t : Table) (name : String) : Except PdError Table :=
  match t.cols.indexOf? name with
  | none => .error .keyError
  | some i => .ok { cols := t.cols.eraseIdx i,
                    rows := t.rows.map (fun r => r.eraseIdx i) }

/-- `vald["elm_ion"] = vald["elm_ion"].str.replace("'", "")`
(`NaN` stays `NaN`). -/
def stripStep (t : Table) : Except PdError Table :=
  (getColumn t "elm_ion").map
    (fun col => setColumn t "elm_ion" (col.map (Option.map stripQuotes)))

/-- `.str.split(" ")` on one cell: every single space splits, empty
pieces included (`NaN` stays `NaN`). -/
def cellParts (c : Option String) : Option (List String) :=
  c.map (fun v => (splitOnChar ' ' v.toList).map String.mk)

/-- The column count of `.str.split(" ", expand=True)`: the maximum
split arity over the non-`NaN` cells; an all-`NaN` nonempty column
expands to a single `NaN` column and an empty one to no columns. -/
def expandWidth (ps : List (Option (List String))) : Nat :=
  if ps.all Option.isNone then (if ps.isEmpty then 0 else 1)
  else ps.foldl (fun w p => max w ((p.map List.length).getD 0)) 0

/-- `vald[["molecule", "ion_charge"]] = vald["elm_ion"].str.split(" ", expand=True)`:
the assignment requires the expanded frame to have exactly two columns,
else pandas raises `ValueError` ("Columns must be same length as key");
rows whose split is shorter are padded with `NaN` on the right. -/
def assignStep (t : Table) : Except PdError Table :=
  match getColumn t "elm_ion" with
  | .error e => .error e
  | .ok col =>
    let ps := col.map cellParts
    if expandWidth ps = 2 then
      .ok (setColumn (setColumn t "molecule" (ps.map (fun p => p.bind (fun l => l.get? 0))))
            "ion_charge" (ps.map (fun p => p.bind (fun l => l.get? 1))))
    else .error .valueError

/-- The value-level transform of `parse_vald`: strip quotes from
`elm_ion`, split it into `molecule` and `ion_charge`, drop `elm_ion`. -/
def parse_transform (t : Table) : Except PdError Table := do
  let t1 ← stripStep t
  let t2 ← assignStep t1
  delColumn t2 "elm_ion"

/-- `parse_vald(vald_raw)` with an explicitly supplied table: the local
`vald` aliases the argument (`vald = vald_raw`, no `.copy()` on this
branch), so the in-place column operations mutate the caller's table.
The second component is the content of the supplied table after the
call: the full result on success, and the partially transformed table
(quotes already stripped) when the split assignment raises. -/
def parse_vald_arg (t : Table) : Except PdError Table × Table :=
  match stripStep t with
  | .error e => (.error e, t)
  | .ok t1 =>
    match assignStep t1 with
    | .error e => (.error e, t1)
    | .ok t2 =>
      match delColumn t2 "elm_ion" with
      | .error e => (.error e, t2)
      | .ok t3 => (.ok t3, t3)

/-- The `elm_ion` cell of a row of a fixed-schema raw table (column 0 of
`vald_columns`). -/
def elmCell (r : List (Option String)) : Option String :=
  (r.get? 0).join

/-- The `elm_ion` cell after the quote-stripping step. -/
def elmStripped (r : List (Option String)) : Option String :=
  (elmCell r).map stripQuotes

/-- A row after the in-place quote-stripping assignment on column 0. -/
def stripRow (r : List (Option String)) : List (Option String) :=
  r.set 0 (elmStripped r)

/-- The space-split pieces of a row's `elm_ion` cell as seen by the
split/assign step (quotes already stripped). -/
def partsOf (r : List (Option String)) : Option (List String) :=
  cellParts (elmStripped r)

/-- The space-split pieces of a row's `elm_ion` cell as-is. -/
def rowPs (r : List (Option String)) : Option (List String) :=
  cellParts (elmCell r)

/-- A fixed-schema row after the whole `parse_vald` transform: quote
strip on column 0, append `molecule` and `ion_charge`, drop column 0. -/
def parsedRowOf (r : List (Option String)) : List (Option String) :=
  (stripRow r ++ [(partsOf r).bind (fun l => l.get? 0),
                  (partsOf r).bind (fun l => l.get? 1)]).eraseIdx 0

/-- The `VALDReader` instance state: the configured source location and
the memoization fields `_vald_raw`, `version` and `_vald`. -/
structure VALDReader where
  fname : String
  valdRawCache : Option Table := none
  versionCache : Option String := none
  valdCache : Option Table := none
deriving DecidableEq, Repr

/-- `read_vald_raw(fname)`: the optional argument only selects the text
of the informational log message; the fetch itself reads
`self.fname` (`read_from_buffer(self.fname)` in the source). The Source
Fetcher is the external collaborator `fetch`, mapping a location to a
buffer and its checksum. Returns the log message and the
`(DataFrame, checksum)` result. -/
def read_vald_raw (fetch : String → List Char × String) (r : VALDReader)
    (fnameArg : Option String) : String × Except PdError (Table × String) :=
  let fname := fnameArg.getD r.fname
  let logMsg := "Parsing VALD from: " ++ fname
  let fetched := fetch r.fname
  (logMsg, (rawFromBuffer fetched.1).map (fun t => (t, fetched.2)))

/-- The `vald_raw` property: return the cached table when present,
otherwise fetch and parse, caching the table and the checksum. The
`Nat` counts the Source Fetcher invocations performed by the call. -/
def vald_raw_access (fetch : String → List Char × String) (r : VALDReader) :
    Except PdError (Table × VALDReader) × Nat :=
  match r.valdRawCache with
  | some t => (.ok (t, r), 0)
  | none =>
    match (read_vald_raw fetch r none).2 with
    | .error e => (.error e, 1)
    | .ok (t, ck) =>
      (.ok (t, { r with valdRawCache := some t, versionCache := some ck }), 1)

/-- The `vald` property: return the cached parsed table when present,
otherwise run `parse_vald()` — which takes `self.vald_raw.copy()`
(triggering the raw property) and transforms the copy — and cache the
result. The `Nat` counts Source Fetcher invocations. -/
def vald_access (fetch : String → List Char × String) (r : VALDReader) :
    Except PdError (Table × VALDReader) × Nat :=
  match r.valdCache with
  | some t => (.ok (t, r), 0)
  | none =>
    match vald_raw_access fetch r with
    | (.error e, n) => (.error e, n)
    | (.ok (traw, r1), n) =>
      match parse_transform traw with
      | .error e => (.error e, n)
      | .ok p => (.ok (p, { r1 with valdCache := some p }), n)

/-- The state of the HDF store file after `to_hdf`: the named tables it
holds and whether the handle has been released. -/
structure HdfStore where
  contents : List (String × Table)
  closed : Bool
deriving DecidableEq, Repr

/-- `to_hdf(fname)`: `pd.HDFStore(fname, "w")` truncates whatever the
destination held (`prior` is discarded), the two properties are read and
put under `/vald_raw` and `/vald`, and the `with` block releases the
handle on every exit path. `putFail k` injects a storage-write failure
into the `k`-th `put`. Returns the outcome, the final store file state,
and the reader state (the properties may have been computed). -/
def to_hdf (fetch : String → List Char × String) (r : VALDReader)
    (putFail : Nat → Bool) (_prior : List (String × Table)) :
    Except PdError Unit × HdfStore × VALDReader :=
  match vald_raw_access fetch r with
  | (.error e, _) => (.error e, ⟨[], true⟩, r)
  | (.ok (traw, r1), _) =>
    if putFail 0 then (.error .storageError, ⟨[], true⟩, r1)
    else
      match vald_access fetch r1 with
      | (.error e, _) => (.error e, ⟨[("/vald_raw", traw)], true⟩, r1)
      | (.ok (tp, r2), _) =>
        if putFail 1 then (.error .storageError, ⟨[("/vald_raw", traw)], true⟩, r2)
        else (.ok (), ⟨[("/vald_raw", traw), ("/vald", tp)], true⟩, r2)

/-- The sample VALD data row from the format comment in the source. -/
def sampleLine : String :=
  "'TiO 1',4100.00020,-11.472,0.2011,31.0,3.2242,32.0,99.000,99.000,99.000,6.962,0.000,0.000,"

/-- The raw table produced from a buffer whose only match is the sample
line: one row holding its 13 values (the trailing empty 14th field is
dropped by `index_col=False`). -/
def sampleTable : Table :=
  ⟨vald_columns,
   [[some "'TiO 1'", some "4100.00020", some "-11.472", some "0.2011",
     some "31.0", some "3.2242", some "32.0", some "99.000", some "99.000",
     some "99.000", some "6.962", some "0.000", some "0.000"]]⟩

/-- `sampleTable` after the `parse_vald` transform. -/
def sampleParsed : Table :=
  ⟨parsed_columns,
   [[some "4100.00020", some "-11.472", some "0.2011", some "31.0",
     some "3.2242", some "32.0", some "99.000", some "99.000", some "99.000",
     some "6.962", some "0.000", some "0.000", some "TiO", some "1"]]⟩

/-- The exact rational value of a decimal numeral, modelling the numeric
reading pandas applies to a float column (sign, integer digits, optional
fraction digits). -/
def decimalValue? (s : String) : Option ℚ :=
  let (sgn, l) : ℤ × List Char :=
    match s.toList with
    | '-' :: rest => (-1, rest)
    | l => (1, l)
  let intPart := l.takeWhile isDigitChar
  let rest := l.dropWhile isDigitChar
  let digitsVal : List Char → ℤ :=
    fun ds => ds.foldl (fun a c => a * 10 + (c.toNat - '0'.toNat : ℤ)) 0
  if intPart = [] then none
  else
    match rest with
    | [] => some (sgn * digitsVal intPart : ℤ)
    | '.' :: frac =>
      if frac.all isDigitChar then
        some (mkRat (sgn * (digitsVal intPart * 10 ^ frac.length + digitsVal frac))
          (10 ^ frac.length))
      else none
    | _ => none

/-- Concrete Source Fetcher used to exercise the accessors: a buffer
holding a single short VALD row. -/
def fetch0 : String → List Char × String :=
  fun _ => ("'Ab 1',2,3,".toList, "ck0")

/-- A freshly constructed reader (no cache fields set). -/
def reader0 : VALDReader := { fname := "local.dat" }

/-- The raw table `fetch0`'s buffer parses to. -/
def table0 : Table :=
  ⟨vald_columns, [[some "'Ab 1'", some "2", some "3"] ++ List.replicate 10 none]⟩

/-- `reader0` after its first successful raw access. -/
def reader1 : VALDReader :=
  { fname := "local.dat", valdRawCache := some table0, versionCache := some "ck0" }

/-- `table0` after the `parse_vald` transform. -/
def parsed0 : Table :=
  ⟨parsed_columns,
   [[some "2", some "3"] ++ List.replicate 10 none ++ [some "Ab", some "1"]]⟩

/-- `reader1` after its first successful parsed access. -/
def reader2 : VALDReader :=
  { reader1 with valdCache := some parsed0 }

end Carsus

namespace Carsus

instance {ε α : Type} [DecidableEq ε] [DecidableEq α] : DecidableEq (Except ε α) :=
  fun a b =>
  match a, b with
  | .error x, .error y =>
    decidable_of_iff (x = y) ⟨fun h => by rw [h], fun h => by injection h⟩
  | .ok x, .ok y =>
    decidable_of_iff (x = y) ⟨fun h => by rw [h], fun h => by injection h⟩
  | .error _, .ok _ => .isFalse (fun h => Except.noConfusion h)
  | .ok _, .error _ => .isFalse (fun h => Except.noConfusion h)

theorem takeWhile_append_all {α : Type} {q : α → Bool} :
    ∀ {l1 l2 : List α}, (∀ c ∈ l1, q c) →
    (l1 ++ l2).takeWhile q = l1 ++ l2.takeWhile q := by
  intro l1
  induction l1 with
  | nil => intro l2 _; rfl
  | cons c cs ih =>
    intro l2 h
    have hc : q c = true := h c (List.mem_cons_self c cs)
    simp [List.takeWhile_cons, hc]
    exact ih (fun x hx => h x (List.mem_cons_of_mem c hx))

theorem dropWhile_append_all {α : Type} {q : α → Bool} :
    ∀ {l1 l2 : List α}, (∀ c ∈ l1, q c) →
    (l1 ++ l2).dropWhile q = l2.dropWhile q := by
  intro l1
  induction l1 with
  | nil => intro l2 _; rfl
  | cons c cs ih =>
    intro l2 h
    have hc : q c = true := h c (List.mem_cons_self c cs)
    simp [List.dropWhile_cons, hc]
    exact ih (fun x hx => h x (List.mem_cons_of_mem c hx))

theorem takeWhile_head_stop {α : Type} {q : α → Bool} {l : List α}
    (h : ∀ c, l.head? = some c → q c = false) : l.takeWhile q = [] := by
  cases l with
  | nil => rfl
  | cons c cs => simp [List.takeWhile_cons, h c rfl]

theorem dropWhile_head_stop {α : Type} {q : α → Bool} {l : List α}
    (h : ∀ c, l.head? = some c → q c = false) : l.dropWhile q = l := by
  cases l with
  | nil => rfl
  | cons c cs => simp [List.dropWhile_cons, h c rfl]

/-- On every success, the raw accessor leaves the raw table in the
`_vald_raw` cache field of the resulting reader state. -/
theorem vald_raw_access_caches {fetch : String → List Char × String}
    {r : VALDReader} {t : Table} {r1 : VALDReader} {n : Nat}
    (h : vald_raw_access fetch r = (.ok (t, r1), n)) :
    r1.valdRawCache = some t := by
  unfold vald_raw_access at h
  cases hc : r.valdRawCache with
  | some t' =>
    rw [hc] at h
    simp only [Prod.mk.injEq, Except.ok.injEq] at h
    obtain ⟨⟨ht, hr⟩, -⟩ := h
    rw [← hr, hc, ht]
  | none =>
    rw [hc] at h
    cases hread : (read_vald_raw fetch r none).2 with
    | error e => rw [hread] at h; simp at h
    | ok pair =>
      rw [hread] at h
      simp only [Prod.mk.injEq, Except.ok.injEq] at h
      obtain ⟨⟨ht, hr⟩, -⟩ := h
      rw [← hr, ← ht]

/-- C6: a second raw access returns the cached table without
re-invoking the fetcher, and a parsed access on such a state performs no
fetch; a second parsed access returns the cached parsed table with no
fetch and no recomputation. -/
theorem vald_accessors_cached
    (fetch : String → List Char × String) (r : VALDReader)
    (t : Table) (r1 : VALDReader) (n : Nat)
    (h : vald_raw_access fetch r = (.ok (t, r1), n)) :
    vald_raw_access fetch r1 = (.ok (t, r1), 0) ∧
    ∀ p r2 m, vald_access fetch r1 = (.ok (p, r2), m) →
      m = 0 ∧ vald_access fetch r2 = (.ok (p, r2), 0) := by
  have hcache : r1.valdRawCache = some t := vald_raw_access_caches h
  have hsecond : vald_raw_access fetch r1 = (.ok (t, r1), 0) := by
    unfold vald_raw_access; rw [hcache]
  refine ⟨hsecond, ?_⟩
  intro p r2 m h2
  unfold vald_access at h2
  cases hv : r1.valdCache with
  | some p' =>
    rw [hv] at h2
    simp only [Prod.mk.injEq, Except.ok.injEq] at h2
    obtain ⟨⟨hp, hr⟩, hm⟩ := h2
    refine ⟨hm.symm, ?_⟩
    unfold vald_access
    rw [← hr, hv, hp]
  | none =>
    rw [hv, hsecond] at h2
    simp only [] at h2
    cases hp : parse_transform t with
    | error e => rw [hp] at h2; simp at h2
    | ok p' =>
      rw [hp] at h2
      simp only [Prod.mk.injEq, Except.ok.injEq] at h2
      obtain ⟨⟨hpp, hr⟩, hm⟩ := h2
      refine ⟨hm.symm, ?_⟩
      unfold vald_access
      rw [← hr]
      simp [← hpp]

/-- C6 witness: on a fresh reader over `fetch0`, the first raw access
fetches once; re-access and the parsed accesses are all cache hits. -/
theorem vald_accessors_cached_witness :
    vald_raw_access fetch0 reader1 = (.ok (table0, reader1), 0) ∧
    (0 = 0 ∧ vald_access fetch0 reader2 = (.ok (parsed0, reader2), 0)) :=
  have h := vald_accessors_cached fetch0 reader0 table0 reader1 1 (by decide)
  ⟨h.1, h.2 parsed0 reader2 0 (by decide)⟩

/-- C10: the `fname` argument of `read_vald_raw` only selects the text
of the log message; the fetch, hence the returned table and checksum,
uses the constructor-configured `self.fname`. -/
theorem read_vald_raw_uses_configured_source
    (fetch : String → List Char × String) (r : VALDReader) (a : String) :
    (read_vald_raw fetch r (some a)).2 = (read_vald_raw fetch r none).2 ∧
    (read_vald_raw fetch r (some a)).1 = "Parsing VALD from: " ++ a :=
  ⟨rfl, rfl⟩

/-- C1 (amended): a buffer without any pattern match makes `read_csv`
see an empty text, which raises `EmptyDataError` — the raw table is not
produced. -/
theorem read_vald_raw_no_match_raises
    (fetch : String → List Char × String) (r : VALDReader)
    (h : findall (fetch r.fname).1 = []) :
    (read_vald_raw fetch r none).2 = .error .emptyData := by
  have hbuf : rawFromBuffer (fetch r.fname).1 = .error .emptyData := by
    unfold rawFromBuffer
    rw [h]
    rfl
  show (rawFromBuffer (fetch r.fname).1).map _ = _
  rw [hbuf]
  rfl

/-- C1 counterexample: on a buffer with no matching substring the raw
table is not returned at all — the call errors with `EmptyDataError`,
contrary to the claimed empty 0-row table. -/
theorem read_vald_raw_no_match_counterexample :
    findall ("no vald rows here".toList) = [] ∧
    (read_vald_raw (fun _ => ("no vald rows here".toList, "ck"))
      { fname := "f" } none).2 = .error .emptyData := by
  constructor
  · decide
  · rfl

/-- C1 witness: the amended theorem applied to the no-match buffer. -/
theorem read_vald_raw_no_match_witness :
    (read_vald_raw (fun _ => ("just noise 123".toList, "ck"))
      { fname := "f" } none).2 = .error .emptyData :=
  read_vald_raw_no_match_raises (fun _ => ("just noise 123".toList, "ck"))
    { fname := "f" } (by decide)

/-- C7 (amended): when the parsed view is computed from the loader's
cached raw table, the transform runs on a copy: afterwards the cache
still holds exactly the raw table the raw accessor produced (with its
`elm_ion` column intact), and the parsed result is its transform. -/
theorem parse_vald_copies_cached_raw
    (fetch : String → List Char × String) (r : VALDReader)
    (p : Table) (r2 : VALDReader) (n : Nat)
    (hc : r.valdCache = none)
    (h : vald_access fetch r = (.ok (p, r2), n)) :
    ∃ t r1, vald_raw_access fetch r = (.ok (t, r1), n) ∧
      r2.valdRawCache = some t ∧ parse_transform t = .ok p := by
  unfold vald_access at h
  rw [hc] at h
  cases hr : vald_raw_access fetch r with
  | mk res n' =>
    cases res with
    | error e => rw [hr] at h; simp at h
    | ok pair =>
      obtain ⟨traw, r1⟩ := pair
      rw [hr] at h
      simp only [] at h
      cases hp : parse_transform traw with
      | error e => rw [hp] at h; simp at h
      | ok p' =>
        rw [hp] at h
        simp only [Prod.mk.injEq, Except.ok.injEq] at h
        obtain ⟨⟨hpp, hrr⟩, hm⟩ := h
        refine ⟨traw, r1, ?_, ?_, ?_⟩
        · rw [← hm]
        · rw [← hrr]
          show r1.valdRawCache = some traw
          exact vald_raw_access_caches hr
        · rw [hp, hpp]

/-- C7 witness: the amended theorem applied to `fetch0` and a fresh
reader; the final state caches `table0` unchanged alongside `parsed0`. -/
theorem parse_vald_copies_cached_raw_witness :
    ∃ t r1, vald_raw_access fetch0 reader0 = (.ok (t, r1), 1) ∧
      reader2.valdRawCache = some t ∧ parse_transform t = .ok parsed0 :=
  parse_vald_copies_cached_raw fetch0 reader0 parsed0 reader2 1 rfl (by decide)

/-- C7 counterexample: `parse_vald` called with an explicitly supplied
raw table does not copy it (`vald = vald_raw` aliases), so the caller's
table is mutated — afterwards it equals the parsed result and has lost
its `elm_ion` column, refuting the claim that it is left unchanged. -/
theorem parse_vald_arg_mutates_counterexample :
    (parse_vald_arg table0).1 = .ok parsed0 ∧
    (parse_vald_arg table0).2 = parsed0 ∧
    parsed0 ≠ table0 ∧
    "elm_ion" ∈ table0.cols ∧ "elm_ion" ∉ (parse_vald_arg table0).2.cols := by
  refine ⟨by decide, by decide, by decide, by decide, by decide⟩

/-- C8: `to_hdf` truncates the destination (the result is independent of
any prior contents), always releases the store handle, on success leaves
exactly the two tables keyed `/vald_raw` and `/vald` (HDF5 key paths for
`vald_raw` and `vald`), and an injected storage-write failure makes the
operation fail while the handle is still released. -/
theorem to_hdf_spec (fetch : String → List Char × String) (r : VALDReader)
    (putFail : Nat → Bool) (prior : List (String × Table)) :
    (to_hdf fetch r putFail prior).2.1.closed = true ∧
    to_hdf fetch r putFail prior = to_hdf fetch r putFail [] ∧
    (∀ store r2, to_hdf fetch r putFail prior = (.ok (), store, r2) →
      ∃ traw tp, store.contents = [("/vald_raw", traw), ("/vald", tp)]) ∧
    ((putFail 0 = true ∨ putFail 1 = true) →
      (to_hdf fetch r putFail prior).1 ≠ .ok ()) := by
  have hind : to_hdf fetch r putFail prior = to_hdf fetch r putFail [] := rfl
  refine ⟨?_, hind, ?_, ?_⟩
  · unfold to_hdf
    rcases vald_raw_access fetch r with ⟨res, n⟩
    cases res with
    | error e => rfl
    | ok pair =>
      obtain ⟨traw, r1⟩ := pair
      by_cases h0 : putFail 0
      · simp [h0]
      · simp only [h0, Bool.false_eq_true, if_false]
        rcases vald_access fetch r1 with ⟨res2, m⟩
        cases res2 with
        | error e => rfl
        | ok pair2 =>
          obtain ⟨tp, r2⟩ := pair2
          by_cases h1 : putFail 1
          · simp [h1]
          · simp [h1]
  · intro store r2 h
    unfold to_hdf at h
    rcases hra : vald_raw_access fetch r with ⟨res, n⟩
    rw [hra] at h
    cases res with
    | error e => simp at h
    | ok pair =>
      obtain ⟨traw, r1⟩ := pair
      by_cases h0 : putFail 0
      · simp [h0] at h
      · simp only [h0, Bool.false_eq_true, if_false] at h
        rcases hva : vald_access fetch r1 with ⟨res2, m⟩
        rw [hva] at h
        cases res2 with
        | error e => simp at h
        | ok pair2 =>
          obtain ⟨tp, r2'⟩ := pair2
          by_cases h1 : putFail 1
          · simp [h1] at h
          · simp only [h1, Bool.false_eq_true, if_false, Prod.mk.injEq] at h
            exact ⟨traw, tp, by rw [← h.2.1]⟩
  · intro hfail
    unfold to_hdf
    rcases vald_raw_access fetch r with ⟨res, n⟩
    cases res with
    | error e => simp
    | ok pair =>
      obtain ⟨traw, r1⟩ := pair
      by_cases h0 : putFail 0
      · simp [h0]
      · simp only [h0, Bool.false_eq_true, if_false]
        rcases vald_access fetch r1 with ⟨res2, m⟩
        cases res2 with
        | error e => simp
        | ok pair2 =>
          obtain ⟨tp, r2⟩ := pair2
          have h1 : putFail 1 = true := by
            rcases hfail with h | h
            · exact absurd h h0
            · exact h
          simp [h1]

theorem zipWith_map_right_self {α β γ : Type} (f : α → β → γ) (g : α → β) :
    ∀ l : List α, List.zipWith f l (l.map g) = l.map (fun x => f x (g x)) := by
  intro l
  induction l with
  | nil => rfl
  | cons c cs ih => simp only [List.map_cons, List.zipWith_cons_cons, ih]

theorem zipWith_two_maps {α β γ δ : Type} (f : β → γ → δ) (a : α → β) (b : α → γ) :
    ∀ l : List α, List.zipWith f (l.map a) (l.map b) = l.map (fun x => f (a x) (b x)) := by
  intro l
  induction l with
  | nil => rfl
  | cons c cs ih => simp only [List.map_cons, List.zipWith_cons_cons, ih]

theorem splitOnChar_ne_nil (sep : Char) : ∀ s : List Char, splitOnChar sep s ≠ [] := by
  intro s
  induction s with
  | nil => simp [splitOnChar]
  | cons c cs ih =>
    unfold splitOnChar
    by_cases h : c = sep
    · simp [h]
    · simp only [h, if_false]
      cases hs : splitOnChar sep cs with
      | nil => simp
      | cons l ls => simp

theorem splitOnChar_singleton (sep : Char) :
    ∀ {s x : List Char}, splitOnChar sep s = [x] → s = x := by
  intro s
  induction s with
  | nil =>
    intro x h
    simp only [splitOnChar, List.cons.injEq] at h
    exact h.1
  | cons c cs ih =>
    intro x h
    unfold splitOnChar at h
    by_cases hc : c = sep
    · rw [if_pos hc] at h
      simp only [List.cons.injEq] at h
      exact absurd h.2 (splitOnChar_ne_nil sep cs)
    · rw [if_neg hc] at h
      cases hs : splitOnChar sep cs with
      | nil => exact absurd hs (splitOnChar_ne_nil sep cs)
      | cons l ls =>
        rw [hs] at h
        simp only [List.cons.injEq] at h
        obtain ⟨hx, hls⟩ := h
        rw [hls] at hs
        rw [← hx, ih hs]

theorem splitOnChar_pair (sep : Char) :
    ∀ {s a b : List Char}, splitOnChar sep s = [a, b] → s = a ++ sep :: b := by
  intro s
  induction s with
  | nil => intro a b h; simp [splitOnChar] at h
  | cons c cs ih =>
    intro a b h
    unfold splitOnChar at h
    by_cases hc : c = sep
    · rw [if_pos hc] at h
      simp only [List.cons.injEq] at h
      obtain ⟨ha, hb⟩ := h
      rw [← ha, hc, splitOnChar_singleton sep hb]
      rfl
    · rw [if_neg hc] at h
      cases hs : splitOnChar sep cs with
      | nil => exact absurd hs (splitOnChar_ne_nil sep cs)
      | cons l ls =>
        rw [hs] at h
        simp only [List.cons.injEq] at h
        obtain ⟨ha, hls⟩ := h
        rw [hls] at hs
        rw [← ha, ih hs]
        rfl

theorem except_map_ok {ε α β : Type} (f : α → β) (a : α) :
    Except.map f (.ok a : Except ε α) = .ok (f a) := rfl

theorem except_bind_ok {ε α β : Type} (a : α) (f : α → Except ε β) :
    (Except.ok a : Except ε α) >>= f = f a := rfl

theorem elmCell_stripRow : ∀ r, elmCell (stripRow r) = elmStripped r := by
  intro r
  cases r with
  | nil => rfl
  | cons c rest => rfl

theorem rowPs_stripRow : ∀ r, rowPs (stripRow r) = partsOf r := by
  intro r
  unfold rowPs partsOf
  rw [elmCell_stripRow]

/-- The quote-stripping step on a fixed-schema table rewrites column 0
row by row and touches nothing else. -/
theorem stripStep_vald (rows : List (List (Option String))) :
    stripStep ⟨vald_columns, rows⟩ = .ok ⟨vald_columns, rows.map stripRow⟩ := by
  have hidx : vald_columns.indexOf? "elm_ion" = some 0 := rfl
  simp only [stripStep, getColumn, setColumn, hidx, except_map_ok, List.map_map,
    zipWith_map_right_self, Function.comp]
  rfl

/-- The split/assign step on a fixed-schema table: with expanded width 2
it appends the `molecule` and `ion_charge` columns, otherwise it raises
`ValueError`. -/
theorem assignStep_vald (rows : List (List (Option String))) :
    assignStep ⟨vald_columns, rows⟩ =
      if expandWidth (rows.map rowPs) = 2 then
        .ok ⟨(vald_columns ++ ["molecule"]) ++ ["ion_charge"],
             rows.map (fun r =>
               (r ++ [(rowPs r).bind (fun l => l.get? 0)])
                 ++ [(rowPs r).bind (fun l => l.get? 1)])⟩
      else .error .valueError := by
  have hidx : vald_columns.indexOf? "elm_ion" = some 0 := rfl
  have hmol : vald_columns.indexOf? "molecule" = none := rfl
  have hion : (vald_columns ++ ["molecule"]).indexOf? "ion_charge" = none := rfl
  have hps : (rows.map (fun r => (r.get? 0).join)).map cellParts = rows.map rowPs := by
    rw [List.map_map]; rfl
  simp only [assignStep, getColumn, hidx, hps]
  by_cases hw : expandWidth (rows.map rowPs) = 2
  · rw [if_pos hw, if_pos hw]
    simp only [setColumn, hmol, hion, List.map_map, zipWith_map_right_self,
      zipWith_two_maps, Function.comp]
  · rw [if_neg hw, if_neg hw]

/-- `parse_vald`'s transform on a fixed-schema table, in closed form:
it succeeds exactly when the space-split of the quote-stripped `elm_ion`
column expands to two columns, and then maps each row to its parsed
shape. -/
theorem parse_transform_vald (rows : List (List (Option String))) :
    parse_transform ⟨vald_columns, rows⟩ =
      if expandWidth (rows.map partsOf) = 2 then
        .ok ⟨parsed_columns, rows.map parsedRowOf⟩
      else .error .valueError := by
  have hcomp : (rows.map stripRow).map rowPs = rows.map partsOf := by
    rw [List.map_map]
    exact List.map_congr_left (fun r _ => rowPs_stripRow r)
  have hidx : ((vald_columns ++ ["molecule"]) ++ ["ion_charge"]).indexOf? "elm_ion"
      = some 0 := rfl
  simp only [parse_transform, stripStep_vald, except_bind_ok, assignStep_vald, hcomp]
  by_cases hw : expandWidth (rows.map partsOf) = 2
  · rw [if_pos hw, if_pos hw]
    simp only [except_bind_ok, delColumn, hidx, List.map_map, Except.ok.injEq,
      Table.mk.injEq]
    constructor
    · rfl
    · refine List.map_congr_left (fun r _ => ?_)
      show ((stripRow r ++ [(rowPs (stripRow r)).bind _]) ++ [(rowPs (stripRow r)).bind _]).eraseIdx 0
          = parsedRowOf r
      rw [rowPs_stripRow]
      unfold parsedRowOf
      rw [List.append_assoc]
      rfl
  · rw [if_neg hw, if_neg hw]
    rfl

theorem foldl_max_le {α : Type} (f : α → Nat) (n : Nat) :
    ∀ (l : List α) (a : Nat), (∀ x ∈ l, f x ≤ n) → a ≤ n →
      l.foldl (fun w p => max w (f p)) a ≤ n := by
  intro l
  induction l with
  | nil => intro a _ ha; exact ha
  | cons c cs ih =>
    intro a h ha
    exact ih _ (fun x hx => h x (List.mem_cons_of_mem _ hx))
      (max_le ha (h c (List.mem_cons_self _ _)))

theorem le_foldl_max_acc {α : Type} (f : α → Nat) :
    ∀ (l : List α) (a : Nat), a ≤ l.foldl (fun w p => max w (f p)) a := by
  intro l
  induction l with
  | nil => intro a; exact le_refl a
  | cons c cs ih =>
    intro a
    exact le_trans (le_max_left a (f c)) (ih (max a (f c)))

theorem mem_le_foldl_max {α : Type} (f : α → Nat) :
    ∀ (l : List α) (a : Nat) (x : α), x ∈ l →
      f x ≤ l.foldl (fun w p => max w (f p)) a := by
  intro l
  induction l with
  | nil => intro a x hx; exact absurd hx (List.not_mem_nil x)
  | cons c cs ih =>
    intro a x hx
    rcases List.mem_cons.mp hx with h | h
    · rw [h]
      exact le_trans (le_max_right a (f c)) (le_foldl_max_acc f cs (max a (f c)))
    · exact ih _ x h

theorem all_isNone_false_of_mem {ps : List (Option (List String))} {l : List String}
    (hmem : some l ∈ ps) : ps.all Option.isNone = false := by
  cases hall : ps.all Option.isNone with
  | false => rfl
  | true =>
    have := List.all_eq_true.mp hall (some l) hmem
    simp [Option.isNone] at this

/-- When some cell splits into exactly two pieces and none into more,
the expanded split frame has exactly two columns. -/
theorem expandWidth_eq_two {ps : List (Option (List String))}
    (hex : ∃ l, some l ∈ ps ∧ l.length = 2)
    (hle : ∀ l, some l ∈ ps → l.length ≤ 2) :
    expandWidth ps = 2 := by
  obtain ⟨l0, hmem, hl0⟩ := hex
  unfold expandWidth
  rw [all_isNone_false_of_mem hmem]
  simp only [Bool.false_eq_true, if_false]
  apply le_antisymm
  · refine foldl_max_le _ 2 ps 0 ?_ (by decide)
    intro x hx
    cases x with
    | none => simp
    | some l => simpa using hle l hx
  · have h := mem_le_foldl_max (fun p => (p.map List.length).getD 0) ps 0 (some l0) hmem
    simpa [hl0] using h

/-- A two-column expansion bounds every split arity by two. -/
theorem expandWidth_le {ps : List (Option (List String))}
    (h : expandWidth ps = 2) {l : List String} (hmem : some l ∈ ps) :
    l.length ≤ 2 := by
  unfold expandWidth at h
  rw [all_isNone_false_of_mem hmem] at h
  simp only [Bool.false_eq_true, if_false] at h
  have hle := mem_le_foldl_max (fun p => (p.map List.length).getD 0) ps 0 (some l) hmem
  rw [h] at hle
  simpa using hle

theorem elmCell_nil : elmCell [] = none := rfl

theorem partsOf_some {r : List (Option String)} {v : String}
    (hv : elmCell r = some v) :
    partsOf r = some ((splitOnChar ' ' (stripQuotes v).toList).map String.mk) := by
  unfold partsOf elmStripped cellParts
  rw [hv]
  rfl

/-- A row's parsed shape, given its `elm_ion` value: the other twelve
cells pass through, and `molecule`/`ion_charge` hold the first two split
pieces (padded with `NaN`). -/
theorem parsedRowOf_eq {r : List (Option String)} {v : String}
    (hv : elmCell r = some v) :
    parsedRowOf r = r.tail ++
      [((splitOnChar ' ' (stripQuotes v).toList).map String.mk).get? 0,
       ((splitOnChar ' ' (stripQuotes v).toList).map String.mk).get? 1] := by
  have hp := partsOf_some hv
  cases r with
  | nil => rw [elmCell_nil] at hv; exact absurd hv (by simp)
  | cons c rest =>
    unfold parsedRowOf stripRow
    rw [hp]
    simp only [Option.some_bind, List.set_cons_zero, List.cons_append,
      List.eraseIdx_cons_zero, List.tail_cons]

/-- C2 (amended): on a nonempty raw table whose `elm_ion` values each
contain exactly one space after quote-stripping, the parsed table drops
`elm_ion`, appends `molecule` and `ion_charge` holding the two split
pieces, and passes every other column through unchanged, with the same
row order and count. (Values with two or more spaces instead abort the
assignment with `ValueError`: the split is on every space, not only the
first — see the counterexample.) -/
theorem parse_vald_one_space (rows : List (List (Option String)))
    (hne : rows ≠ [])
    (hsp : ∀ r ∈ rows, ∃ v a b, elmCell r = some v ∧
      splitOnChar ' ' (stripQuotes v).toList = [a, b]) :
    ∃ prows, parse_transform ⟨vald_columns, rows⟩ = .ok ⟨parsed_columns, prows⟩ ∧
      prows.length = rows.length ∧
      ∀ j r, rows.get? j = some r → ∃ v a b,
        elmCell r = some v ∧ splitOnChar ' ' (stripQuotes v).toList = [a, b] ∧
        prows.get? j = some (r.tail ++ [some (String.mk a), some (String.mk b)]) := by
  have hparts : ∀ l ∈ rows.map partsOf, ∃ pl, l = some pl ∧ pl.length = 2 := by
    intro l hl
    obtain ⟨r, hr, hrl⟩ := List.mem_map.mp hl
    obtain ⟨v, a, b, hv, hab⟩ := hsp r hr
    refine ⟨[String.mk a, String.mk b], ?_, rfl⟩
    rw [← hrl, partsOf_some hv, hab]
    rfl
  have hw : expandWidth (rows.map partsOf) = 2 := by
    apply expandWidth_eq_two
    · obtain ⟨r0, hr0⟩ := List.exists_mem_of_ne_nil rows hne
      have hm : partsOf r0 ∈ rows.map partsOf := List.mem_map_of_mem partsOf hr0
      obtain ⟨pl, hpl, hlen⟩ := hparts _ hm
      exact ⟨pl, by rw [← hpl]; exact hm, hlen⟩
    · intro l hl
      obtain ⟨pl, hpl, hlen⟩ := hparts _ hl
      injection hpl with he
      rw [he]
      exact le_of_eq hlen
  refine ⟨rows.map parsedRowOf, ?_, List.length_map rows parsedRowOf, ?_⟩
  · rw [parse_transform_vald, if_pos hw]
  · intro j r hj
    obtain ⟨v, a, b, hv, hab⟩ := hsp r (List.get?_mem hj)
    refine ⟨v, a, b, hv, hab, ?_⟩
    rw [List.get?_map, hj]
    show some (parsedRowOf r) = _
    rw [parsedRowOf_eq hv, hab]
    rfl

/-- C2 counterexample: an `elm_ion` value with two embedded spaces (so
a three-piece split) makes the two-column assignment raise `ValueError`
instead of putting the remainder into `ion_charge` as claimed. -/
theorem parse_vald_two_spaces_counterexample :
    parse_transform
      ⟨vald_columns, [[some "'Ab 1 2'"] ++ List.replicate 12 none]⟩ =
        .error .valueError ∧
    stripQuotes "'Ab 1 2'" = "Ab 1 2" := by
  constructor
  · decide
  · decide

/-- C2 witness: the amended theorem applied to a one-row table with
`elm_ion` value `'Ab 1'`. -/
theorem parse_vald_one_space_witness :
    ∃ prows, parse_transform ⟨vald_columns, table0.rows⟩ =
        .ok ⟨parsed_columns, prows⟩ ∧
      prows.length = table0.rows.length ∧
      ∀ j r, table0.rows.get? j = some r → ∃ v a b,
        elmCell r = some v ∧ splitOnChar ' ' (stripQuotes v).toList = [a, b] ∧
        prows.get? j = some (r.tail ++ [some (String.mk a), some (String.mk b)]) := by
  refine parse_vald_one_space table0.rows (by decide) ?_
  intro r hr
  have hr0 : r = [some "'Ab 1'", some "2", some "3"] ++ List.replicate 10 none := by
    simpa [table0] using hr
  exact ⟨"'Ab 1'", "Ab".toList, "1".toList, by rw [hr0]; decide, by decide⟩

/-- C3 (amended): a row whose `elm_ion` has no embedded space yields a
`NaN` (missing) `ion_charge` and no error, provided some other row's
value does split into two pieces (so the expanded frame is two columns
wide) and no value splits into more. A table whose values all lack
spaces instead raises `ValueError` — see the counterexample. -/
theorem parse_vald_no_space_row (rows : List (List (Option String)))
    (j : Nat) (r : List (Option String)) (w : List Char) (v : String)
    (hmax : ∀ r' ∈ rows, ∀ v', elmCell r' = some v' →
      (splitOnChar ' ' (stripQuotes v').toList).length ≤ 2)
    (hex : ∃ r' ∈ rows, ∃ v', elmCell r' = some v' ∧
      (splitOnChar ' ' (stripQuotes v').toList).length = 2)
    (hj : rows.get? j = some r) (hv : elmCell r = some v)
    (hw1 : splitOnChar ' ' (stripQuotes v).toList = [w]) :
    ∃ prows, parse_transform ⟨vald_columns, rows⟩ = .ok ⟨parsed_columns, prows⟩ ∧
      prows.get? j = some (r.tail ++ [some (String.mk w), none]) := by
  have hw : expandWidth (rows.map partsOf) = 2 := by
    apply expandWidth_eq_two
    · obtain ⟨r0, hr0, v0, hv0, hlen0⟩ := hex
      refine ⟨(splitOnChar ' ' (stripQuotes v0).toList).map String.mk, ?_, ?_⟩
      · rw [← partsOf_some hv0]
        exact List.mem_map_of_mem partsOf hr0
      · rw [List.length_map]; exact hlen0
    · intro l hl
      obtain ⟨r', hr', hrl⟩ := List.mem_map.mp hl
      cases hc : elmCell r' with
      | none =>
        have hnone : partsOf r' = none := by
          unfold partsOf elmStripped
          rw [hc]
          rfl
        rw [hnone] at hrl
        exact absurd hrl (by simp)
      | some v' =>
        have := partsOf_some hc
        rw [hrl] at this
        injection this with hlv
        rw [hlv, List.length_map]
        exact hmax r' hr' v' hc
  refine ⟨rows.map parsedRowOf, by rw [parse_transform_vald, if_pos hw], ?_⟩
  rw [List.get?_map, hj]
  show some (parsedRowOf r) = _
  rw [parsedRowOf_eq hv, hw1]
  rfl

/-- C3 counterexample: a raw table whose only `elm_ion` value has no
space makes the split expand to a single column, and the two-column
assignment raises `ValueError` — the claim's "does not raise" fails. -/
theorem parse_vald_no_space_counterexample :
    parse_transform
      ⟨vald_columns, [[some "'Ab'"] ++ List.replicate 12 none]⟩ =
        .error .valueError := by
  decide

/-- C3 witness: the amended theorem applied to a two-row table whose
second row's `elm_ion` is the spaceless `'Ab'`; its `ion_charge` comes
out `NaN` with no error. -/
theorem parse_vald_no_space_row_witness :
    ∃ prows, parse_transform
        ⟨vald_columns, [[some "'Cd 4'"] ++ List.replicate 12 none,
                        [some "'Ab'"] ++ List.replicate 12 none]⟩ =
        .ok ⟨parsed_columns, prows⟩ ∧
      prows.get? 1 = some (List.replicate 12 none ++ [some (String.mk "Ab".toList), none]) := by
  refine parse_vald_no_space_row
    [[some "'Cd 4'"] ++ List.replicate 12 none, [some "'Ab'"] ++ List.replicate 12 none]
    1 ([some "'Ab'"] ++ List.replicate 12 none) "Ab".toList "'Ab'" ?_ ?_ (by decide)
    (by decide) (by decide)
  · intro r' hr' v' hc
    have hr2 : r' = [some "'Cd 4'"] ++ List.replicate 12 none ∨
        r' = [some "'Ab'"] ++ List.replicate 12 none := by
      rcases List.mem_cons.mp hr' with h | h
      · exact Or.inl h
      · rcases List.mem_cons.mp h with h2 | h2
        · exact Or.inr h2
        · exact absurd h2 (List.not_mem_nil r')
    rcases hr2 with h | h
    · rw [h] at hc
      have hcell : elmCell ([some "'Cd 4'"] ++ List.replicate 12 none) =
          some "'Cd 4'" := by decide
      rw [hcell] at hc
      injection hc with h3
      rw [← h3]
      decide
    · rw [h] at hc
      have hcell : elmCell ([some "'Ab'"] ++ List.replicate 12 none) =
          some "'Ab'" := by decide
      rw [hcell] at hc
      injection hc with h3
      rw [← h3]
      decide
  · exact ⟨[some "'Cd 4'"] ++ List.replicate 12 none, List.mem_cons_self _ _,
      "'Cd 4'", by decide, by decide⟩

theorem get_last_append_two {α : Type} (l : List α) (x y : α) :
    (l ++ [x, y]).get? ((l ++ [x, y]).length - 1) = some y := by
  rw [List.length_append]
  simp only [List.length_cons, List.length_nil]
  rw [List.get?_append_right (by omega)]
  have h2 : l.length + (0 + 1 + 1) - 1 - l.length = 1 := by omega
  rw [h2]
  rfl

theorem get_penult_append_two {α : Type} (l : List α) (x y : α) :
    (l ++ [x, y]).get? ((l ++ [x, y]).length - 2) = some x := by
  rw [List.length_append]
  simp only [List.length_cons, List.length_nil]
  rw [List.get?_append_right (by omega)]
  have h2 : l.length + (0 + 1 + 1) - 2 - l.length = 0 := by omega
  rw [h2]
  rfl

theorem parsedRowOf_none_cell {r : List (Option String)} (hv : elmCell r = none) :
    parsedRowOf r = r.tail ++ [none, none] ∨ parsedRowOf r = [none] := by
  have hpnone : partsOf r = none := by
    unfold partsOf elmStripped
    rw [hv]
    rfl
  cases r with
  | nil => exact Or.inr rfl
  | cons c rest =>
    left
    unfold parsedRowOf stripRow
    rw [hpnone]
    simp only [Option.none_bind, List.set_cons_zero, List.cons_append,
      List.eraseIdx_cons_zero, List.tail_cons]

theorem string_mk_append (a b : List Char) :
    String.mk a ++ String.mk b = String.mk (a ++ b) := rfl

/-- C9: whenever the parse succeeds on a fixed-schema raw table, a
parsed row whose last two cells (`molecule` and `ion_charge`) are both
present with `ion_charge` nonempty reconstructs the quote-stripped
`elm_ion` of the corresponding raw row as `molecule ++ " " ++ ion_charge`. -/
theorem parse_vald_reconstruction (rows : List (List (Option String))) (p : Table)
    (h : parse_transform ⟨vald_columns, rows⟩ = .ok p)
    (j : Nat) (r rp : List (Option String)) (mol ic : String)
    (hj : rows.get? j = some r) (hpj : p.rows.get? j = some rp)
    (hmol : rp.get? (rp.length - 2) = some (some mol))
    (hic : rp.get? (rp.length - 1) = some (some ic))
    (_hne : ic ≠ "") :
    ∃ v, elmCell r = some v ∧ mol ++ " " ++ ic = stripQuotes v := by
  rw [parse_transform_vald] at h
  by_cases hw : expandWidth (rows.map partsOf) = 2
  · rw [if_pos hw] at h
    injection h with hom
    rw [← hom] at hpj
    simp only [List.get?_map, hj, Option.map_some'] at hpj
    injection hpj with hrp
    cases hc : elmCell r with
    | none =>
      exfalso
      rcases parsedRowOf_none_cell hc with hform | hform
      · rw [← hrp, hform, get_last_append_two] at hic
        injection hic with he
        exact Option.noConfusion he
      · rw [← hrp, hform] at hic
        have : (some (none : Option String)) = some (some ic) := hic
        injection this with he
        exact Option.noConfusion he
    | some v =>
      refine ⟨v, rfl, ?_⟩
      rw [← hrp, parsedRowOf_eq hc] at hmol hic
      have hmol2 : ((splitOnChar ' ' (stripQuotes v).toList).map String.mk).get? 0
          = some mol := by
        rw [get_penult_append_two] at hmol
        injection hmol
      have hic2 : ((splitOnChar ' ' (stripQuotes v).toList).map String.mk).get? 1
          = some ic := by
        rw [get_last_append_two] at hic
        injection hic
      have hmem2 : some ((splitOnChar ' ' (stripQuotes v).toList).map String.mk) ∈
          List.map partsOf rows := by
        rw [← partsOf_some hc]
        exact List.mem_map_of_mem partsOf (List.get?_mem hj)
      have hlen2 : ((splitOnChar ' ' (stripQuotes v).toList).map String.mk).length ≤ 2 :=
        expandWidth_le hw hmem2
      have hlenge : 2 ≤ ((splitOnChar ' ' (stripQuotes v).toList).map String.mk).length := by
        have := (List.get?_eq_some.mp hic2).1
        omega
      have hsplen : (splitOnChar ' ' (stripQuotes v).toList).length = 2 := by
        have hm := List.length_map (splitOnChar ' ' (stripQuotes v).toList) String.mk
        omega
      obtain ⟨a, b, hab⟩ : ∃ a b, splitOnChar ' ' (stripQuotes v).toList = [a, b] := by
        cases hs0 : splitOnChar ' ' (stripQuotes v).toList with
        | nil => rw [hs0] at hsplen; simp at hsplen
        | cons a t =>
          cases ht : t with
          | nil => rw [hs0, ht] at hsplen; simp at hsplen
          | cons b t2 =>
            cases ht2 : t2 with
            | nil => exact ⟨a, b, rfl⟩
            | cons c t3 => rw [hs0, ht, ht2] at hsplen; simp at hsplen
      have hmola : mol = String.mk a := by
        rw [hab] at hmol2
        have h2 : some (String.mk a) = some mol := hmol2
        injection h2 with he
        exact he.symm
      have hicb : ic = String.mk b := by
        rw [hab] at hic2
        have h2 : some (String.mk b) = some ic := hic2
        injection h2 with he
        exact he.symm
      have hjoin : (stripQuotes v).toList = a ++ ' ' :: b := splitOnChar_pair ' ' hab
      rw [hmola, hicb]
      have hmkv : String.mk (a ++ ' ' :: b) = stripQuotes v := by
        rw [← hjoin]
        rfl
      calc String.mk a ++ " " ++ String.mk b
          = String.mk ((a ++ [' ']) ++ b) := rfl
        _ = String.mk (a ++ ' ' :: b) := by rw [List.append_assoc]; rfl
        _ = stripQuotes v := hmkv
  · rw [if_neg hw] at h
    exact absurd h (by simp)

/-- C9 witness: the reconstruction theorem applied to the one-row table
`table0` and its parsed form `parsed0`: molecule `Ab` and ion charge `1`
rebuild the quote-stripped `elm_ion` value `Ab 1`. -/
theorem parse_vald_reconstruction_witness :
    ∃ v, elmCell ([some "'Ab 1'", some "2", some "3"] ++ List.replicate 10 none)
        = some v ∧ "Ab" ++ " " ++ "1" = stripQuotes v :=
  parse_vald_reconstruction table0.rows parsed0 (by decide) 0
    ([some "'Ab 1'", some "2", some "3"] ++ List.replicate 10 none)
    ([some "2", some "3"] ++ List.replicate 10 none ++ [some "Ab", some "1"])
    "Ab" "1" (by decide) (by decide) (by decide) (by decide) (by decide)

theorem csvRow_length (n w : Nat) (l : List Char) : (csvRow n w l).length = n := by
  simp only [csvRow, padCells, List.length_append, List.length_replicate,
    List.length_take]
  omega

theorem splitLinesCh_cons_other {c : Char} (hc1 : c ≠ '\r') (hc2 : c ≠ '\n')
    (rest : List Char) :
    splitLinesCh (c :: rest) =
      match splitLinesCh rest with
      | [] => [[c]]
      | l :: ls => (c :: l) :: ls := by
  conv_lhs => rw [splitLinesCh.eq_def]
  split
  all_goals simp_all

theorem splitLinesCh_no_break {m : List Char}
    (h : ∀ c ∈ m, c ≠ '\n' ∧ c ≠ '\r') : splitLinesCh m = [m] := by
  induction m with
  | nil => rfl
  | cons c rest ih =>
    have hc := h c (List.mem_cons_self c rest)
    rw [splitLinesCh_cons_other hc.2 hc.1,
      ih (fun x hx => h x (List.mem_cons_of_mem c hx))]

theorem splitLinesCh_break_head (t : List Char) :
    splitLinesCh ('\n' :: t) = [] :: splitLinesCh t := by
  conv_lhs => rw [splitLinesCh.eq_def]
  rfl

theorem splitLinesCh_append_break {m : List Char} (t : List Char)
    (h : ∀ c ∈ m, c ≠ '\n' ∧ c ≠ '\r') :
    splitLinesCh (m ++ '\n' :: t) = m :: splitLinesCh t := by
  induction m with
  | nil =>
    rw [List.nil_append, splitLinesCh_break_head]
  | cons c rest ih =>
    have hc := h c (List.mem_cons_self c rest)
    rw [List.cons_append, splitLinesCh_cons_other hc.2 hc.1,
      ih (fun x hx => h x (List.mem_cons_of_mem c hx))]

theorem joinMatches_cons_cons (m m2 : List Char) (ms : List (List Char)) :
    joinMatches (m :: m2 :: ms) = m ++ '\n' :: joinMatches (m2 :: ms) := by
  simp [joinMatches, List.intercalate, List.intersperse]

theorem joinMatches_singleton (m : List Char) : joinMatches [m] = m := by
  simp [joinMatches, List.intercalate, List.intersperse]

/-- Splitting the newline-join of line-break-free pieces recovers the
pieces. -/
theorem splitLinesCh_joinMatches :
    ∀ {ms : List (List Char)}, ms ≠ [] →
      (∀ m ∈ ms, ∀ c ∈ m, c ≠ '\n' ∧ c ≠ '\r') →
      splitLinesCh (joinMatches ms) = ms := by
  intro ms
  induction ms with
  | nil => intro h _; exact absurd rfl h
  | cons m rest ih =>
    intro _ h
    cases hr : rest with
    | nil =>
      rw [joinMatches_singleton]
      rw [splitLinesCh_no_break (h m (List.mem_cons_self m rest))]
    | cons m2 ms2 =>
      subst hr
      rw [joinMatches_cons_cons,
        splitLinesCh_append_break _ (h m (List.mem_cons_self m _))]
      rw [ih (by simp) (fun x hx => h x (List.mem_cons_of_mem m hx))]

theorem matchAt_ne_nil {s m rest : List Char} (h : matchAt s = some (m, rest)) :
    m ≠ [] := by
  cases s with
  | nil => exact absurd h (by simp [matchAt])
  | cons c s1 =>
    simp only [matchAt] at h
    by_cases hc : c = '\''
    · rw [if_pos hc] at h
      cases hq : matchAfterQuote s1 with
      | none => rw [hq] at h; exact absurd h (by simp)
      | some p =>
        rw [hq] at h
        obtain ⟨m', rest'⟩ := p
        simp only [Option.some.injEq, Prod.mk.injEq] at h
        rw [← h.1]
        simp
    · rw [if_neg hc] at h
      exact absurd h (by simp)

theorem findallAux_mem_ne_nil :
    ∀ (fuel : Nat) (s : List Char) (m : List Char),
      m ∈ findallAux fuel s → m ≠ [] := by
  intro fuel
  induction fuel with
  | zero => intro s m hm; exact absurd hm (by simp [findallAux])
  | succ f ih =>
    intro s m hm
    cases s with
    | nil => exact absurd hm (by simp [findallAux])
    | cons c cs =>
      simp only [findallAux] at hm
      cases hma : matchAt (c :: cs) with
      | none =>
        rw [hma] at hm
        exact ih cs m hm
      | some p =>
        obtain ⟨m', rest⟩ := p
        rw [hma] at hm
        rcases List.mem_cons.mp hm with h | h
        · rw [h]; exact matchAt_ne_nil hma
        · exact ih rest m h

theorem findall_mem_ne_nil {s m : List Char} (h : m ∈ findall s) : m ≠ [] :=
  findallAux_mem_ne_nil s.length s m h

/-- Inverting a successful `read_csv`: the columns are the given names
and the rows are the per-line parse of the non-blank lines, which are
nonempty. -/
theorem read_csv_ok_shape {names : List String} {input : List Char} {t : Table}
    (h : read_csv names input = .ok t) :
    t.cols = names ∧
    ∃ w, t.rows = ((splitLinesCh input).filter (fun l => l ≠ [])).map
        (csvRow names.length w) ∧
      (splitLinesCh input).filter (fun l => l ≠ []) ≠ [] := by
  unfold read_csv at h
  cases hl : (splitLinesCh input).filter (fun l => l ≠ []) with
  | nil =>
    rw [hl] at h
    simp only [] at h
    exact absurd h (by simp)
  | cons l0 rest =>
    rw [hl] at h
    simp only [] at h
    split at h
    · exact absurd h (by simp)
    · simp only [Except.ok.injEq] at h
      refine ⟨by rw [← h], (splitOnChar ',' l0).length, by rw [← h], by simp⟩

/-- C5 (amended): whenever the raw table is successfully constructed,
its column list is the fixed 13-name schema and every row has exactly
13 cells; and when no matched substring contains a line-break character
(the normal case — a match can contain one via the `\s` in the class),
the row count equals the number of non-overlapping pattern matches.
A match with an embedded line break is split into several CSV rows, so
row count can exceed match count — see the counterexample. -/
theorem raw_table_shape (fetch : String → List Char × String) (r : VALDReader)
    (t : Table) (ck : String)
    (h : (read_vald_raw fetch r none).2 = .ok (t, ck)) :
    t.cols = vald_columns ∧ t.cols.length = 13 ∧
    (∀ row ∈ t.rows, row.length = 13) ∧
    ((∀ m ∈ findall (fetch r.fname).1, ∀ c ∈ m, c ≠ '\n' ∧ c ≠ '\r') →
      t.rows.length = (findall (fetch r.fname).1).length) := by
  have hraw : rawFromBuffer (fetch r.fname).1 = .ok t := by
    have h2 : (rawFromBuffer (fetch r.fname).1).map
        (fun tt => (tt, (fetch r.fname).2)) = .ok (t, ck) := h
    cases hr : rawFromBuffer (fetch r.fname).1 with
    | error e => rw [hr] at h2; exact absurd h2 (by simp [Except.map])
    | ok t' =>
      rw [hr] at h2
      simp only [Except.map, Except.ok.injEq, Prod.mk.injEq] at h2
      rw [h2.1]
  obtain ⟨hcols, w, hrows, hne⟩ := read_csv_ok_shape hraw
  refine ⟨hcols, by rw [hcols]; rfl, ?_, ?_⟩
  · intro row hrow
    rw [hrows] at hrow
    obtain ⟨l, -, hl⟩ := List.mem_map.mp hrow
    rw [← hl]
    have : vald_columns.length = 13 := rfl
    rw [this] at *
    exact csvRow_length 13 w l
  · intro hnb
    rw [hrows, List.length_map]
    have hmsne : findall (fetch r.fname).1 ≠ [] := by
      intro h0
      apply hne
      rw [h0]
      rfl
    rw [splitLinesCh_joinMatches hmsne hnb]
    rw [List.filter_eq_self.mpr (fun a ha => by simpa using findall_mem_ne_nil ha)]

/-- C5 counterexample: the buffer `'Ab 1',1,\n2,` has exactly one
pattern match (the class contains `\s`, so the match swallows the line
break), yet the raw table has two rows: the claimed equality of row
count and match count fails. -/
theorem raw_rowcount_counterexample :
    (findall "'Ab 1',1,\n2,".toList).length = 1 ∧
    rawFromBuffer "'Ab 1',1,\n2,".toList =
      .ok ⟨vald_columns, [[some "'Ab 1'", some "1"] ++ List.replicate 11 none,
                          [some "2"] ++ List.replicate 12 none]⟩ := by
  constructor
  · decide
  · decide

/-- C5 witness: the shape theorem applied to `fetch0`, whose single
match has no line break: 13 columns, 13-cell rows, one row for one
match. -/
theorem raw_table_shape_witness :
    table0.cols = vald_columns ∧ table0.cols.length = 13 ∧
    (∀ row ∈ table0.rows, row.length = 13) ∧
    table0.rows.length = (findall (fetch0 reader0.fname).1).length := by
  have h := raw_table_shape fetch0 reader0 table0 "ck0" (by decide)
  exact ⟨h.1, h.2.1, h.2.2.1, h.2.2.2 (by decide)⟩

theorem matchAt_cons_ne {c : Char} (hc : c ≠ '\'') (l : List Char) :
    matchAt (c :: l) = none := by
  simp [matchAt, hc]

theorem findallAux_nil : ∀ f : Nat, findallAux f [] = [] := by
  intro f
  cases f with
  | zero => rfl
  | succ n => rfl

theorem findallAux_no_match {f : Nat} {c : Char} {cs : List Char}
    (h : matchAt (c :: cs) = none) :
    findallAux (f + 1) (c :: cs) = findallAux f cs := by
  simp [findallAux, h]

theorem findallAux_skip :
    ∀ (p : List Char), (∀ c ∈ p, c ≠ '\'') → ∀ (f : Nat) (t : List Char),
      findallAux (p.length + f) (p ++ t) = findallAux f t := by
  intro p
  induction p with
  | nil =>
    intro _ f t
    rw [List.nil_append, List.length_nil, Nat.zero_add]
  | cons c cs ih =>
    intro h f t
    have harith : (c :: cs).length + f = (cs.length + f) + 1 := by
      simp [List.length_cons]
      omega
    rw [harith, List.cons_append,
      findallAux_no_match (matchAt_cons_ne (h c (List.mem_cons_self c cs)) (cs ++ t))]
    exact ih (fun x hx => h x (List.mem_cons_of_mem c hx)) f t

theorem findallAux_match {f : Nat} {s m rest : List Char}
    (h : matchAt s = some (m, rest)) :
    findallAux (f + 1) s = m :: findallAux f rest := by
  cases s with
  | nil => simp [matchAt] at h
  | cons c cs => simp [findallAux, h]

theorem drop_len_add {α : Type} :
    ∀ (l1 l2 : List α) (i : Nat), (l1 ++ l2).drop (l1.length + i) = l2.drop i := by
  intro l1
  induction l1 with
  | nil => intro l2 i; rw [List.nil_append, List.length_nil, Nat.zero_add]
  | cons c cs ih =>
    intro l2 i
    have harith : (c :: cs).length + i = (cs.length + i) + 1 := by
      simp [List.length_cons]
      omega
    rw [harith, List.cons_append]
    show (cs ++ l2).drop (cs.length + i) = l2.drop i
    exact ih l2 i

theorem take_len_append {α : Type} :
    ∀ (l1 l2 : List α), (l1 ++ l2).take l1.length = l1 := by
  intro l1
  induction l1 with
  | nil => intro l2; rfl
  | cons c cs ih =>
    intro l2
    rw [List.cons_append]
    show c :: (cs ++ l2).take cs.length = c :: cs
    rw [ih l2]

/-- Where the greedy `C+,` of the pattern ends on a class run shaped
`body ++ [","]` followed by a non-class character: at the final comma. -/
theorem lastCommaIdx_append_comma (body : List Char) (hb : body ≠ []) :
    lastCommaIdx (body ++ [',']) = some body.length := by
  unfold lastCommaIdx
  have hlen : (body ++ [',']).length = body.length + 1 := by
    simp
  rw [hlen, List.range_succ, List.foldl_append]
  simp only [List.foldl_cons, List.foldl_nil]
  have hget : (body ++ [',']).get? body.length = some ',' := by
    rw [List.get?_append_right (le_refl body.length), Nat.sub_self]
    rfl
  have hcond : 1 ≤ body.length ∧ (body ++ [',']).get? body.length = some ',' :=
    ⟨by cases body with
        | nil => exact absurd rfl hb
        | cons x xs => simp [List.length_cons]
      , hget⟩
  rw [if_pos hcond]

/-- The pattern matches a well-formed VALD line (quoted letters, space,
digits, comma, a nonempty class-character body, final comma) exactly,
when what follows starts outside the class and is not `]`. -/
theorem matchAfterQuote_wf (letters digits body s : List Char)
    (hl : letters ≠ []) (hla : ∀ c ∈ letters, isAsciiLetter c = true)
    (hd : digits ≠ []) (hda : ∀ c ∈ digits, isDigitChar c = true)
    (hb : body ≠ []) (hba : ∀ c ∈ body, isClassChar c = true)
    (hs : ∀ c, s.head? = some c → isClassChar c = false ∧ c ≠ ']') :
    matchAfterQuote
        (letters ++ (' ' :: (digits ++ ('\'' :: (',' :: (body ++ (',' :: s)))))))
      = some (letters ++ ' ' :: digits ++ '\'' :: ',' :: (body ++ [',']), s) := by
  have hsp : ∀ c, s.head? = some c → isClassChar c = false := fun c hc => (hs c hc).1
  have hsb : ∀ c, s.head? = some c → (fun x => decide (x = ']')) c = false := by
    intro c hc
    simpa using (hs c hc).2
  have htw1 : (letters ++ (' ' :: (digits ++ ('\'' :: (',' :: (body ++ (',' :: s))))))).takeWhile
      isAsciiLetter = letters := by
    rw [takeWhile_append_all hla, takeWhile_head_stop, List.append_nil]
    intro c hc
    rw [show c = ' ' by simpa using hc.symm]
    rfl
  have hdw1 : (letters ++ (' ' :: (digits ++ ('\'' :: (',' :: (body ++ (',' :: s))))))).dropWhile
      isAsciiLetter = ' ' :: (digits ++ ('\'' :: (',' :: (body ++ (',' :: s))))) := by
    rw [dropWhile_append_all hla, dropWhile_head_stop]
    intro c hc
    rw [show c = ' ' by simpa using hc.symm]
    rfl
  have htw2 : (digits ++ ('\'' :: (',' :: (body ++ (',' :: s))))).takeWhile
      isDigitChar = digits := by
    rw [takeWhile_append_all hda, takeWhile_head_stop, List.append_nil]
    intro c hc
    rw [show c = '\'' by simpa using hc.symm]
    rfl
  have hdw2 : (digits ++ ('\'' :: (',' :: (body ++ (',' :: s))))).dropWhile
      isDigitChar = '\'' :: (',' :: (body ++ (',' :: s))) := by
    rw [dropWhile_append_all hda, dropWhile_head_stop]
    intro c hc
    rw [show c = '\'' by simpa using hc.symm]
    rfl
  have htw3 : (body ++ (',' :: s)).takeWhile isClassChar = body ++ [','] := by
    rw [takeWhile_append_all hba, List.takeWhile_cons]
    have hcl : isClassChar ',' = true := rfl
    rw [hcl]
    simp only [if_true]
    rw [takeWhile_head_stop hsp]
  have hdrop : (body ++ (',' :: s)).drop (body.length + 1) = s := by
    rw [drop_len_add body (',' :: s) 1]
    rfl
  have htwb : s.takeWhile (fun x => decide (x = ']')) = [] :=
    takeWhile_head_stop hsb
  have hdwb : s.dropWhile (fun x => decide (x = ']')) = s :=
    dropWhile_head_stop hsb
  unfold matchAfterQuote
  rw [htw1, hdw1, if_neg hl]
  simp only []
  rw [htw2, hdw2, if_neg hd]
  simp only []
  rw [htw3, lastCommaIdx_append_comma body hb]
  simp only []
  rw [hdrop, htwb, hdwb, take_len_append body [',']]

theorem matchAt_wf (letters digits body s : List Char)
    (hl : letters ≠ []) (hla : ∀ c ∈ letters, isAsciiLetter c = true)
    (hd : digits ≠ []) (hda : ∀ c ∈ digits, isDigitChar c = true)
    (hb : body ≠ []) (hba : ∀ c ∈ body, isClassChar c = true)
    (hs : ∀ c, s.head? = some c → isClassChar c = false ∧ c ≠ ']') :
    matchAt ('\'' :: (letters ++ (' ' :: (digits ++ ('\'' :: (',' :: (body ++ (',' :: s))))))))
      = some ('\'' :: (letters ++ ' ' :: digits ++ '\'' :: ',' :: (body ++ [','])), s) := by
  have h := matchAfterQuote_wf letters digits body s hl hla hd hda hb hba hs
  simp [matchAt, h]

/-- The scan finds exactly the sample line in any surrounding noise that
contains no single quote, provided the suffix does not begin with a
pattern-class character or `]` (which would extend the greedy match). -/
theorem findall_sample_embedded (p s : List Char)
    (hp : ∀ c ∈ p, c ≠ '\'') (hsq : ∀ c ∈ s, c ≠ '\'')
    (hs : ∀ c, s.head? = some c → isClassChar c = false ∧ c ≠ ']') :
    findall (p ++ sampleLine.toList ++ s) = [sampleLine.toList] := by
  have hmatch : matchAt (sampleLine.toList ++ s) = some (sampleLine.toList, s) := by
    have h0 : sampleLine.toList = '\'' :: ("TiO".toList ++ (' ' :: ("1".toList ++ ('\'' :: (',' ::
        ("4100.00020,-11.472,0.2011,31.0,3.2242,32.0,99.000,99.000,99.000,6.962,0.000,0.000".toList
          ++ [','])))))) := by decide
    have hdecomp : sampleLine.toList ++ s
        = '\'' :: ("TiO".toList ++ (' ' :: ("1".toList ++ ('\'' :: (',' ::
        ("4100.00020,-11.472,0.2011,31.0,3.2242,32.0,99.000,99.000,99.000,6.962,0.000,0.000".toList
          ++ (',' :: s))))))) := by
      rw [h0]
      simp
    rw [hdecomp]
    rw [matchAt_wf "TiO".toList "1".toList
      "4100.00020,-11.472,0.2011,31.0,3.2242,32.0,99.000,99.000,99.000,6.962,0.000,0.000".toList
      s (by decide) (by decide) (by decide) (by decide) (by decide) (by decide) hs]
    have h2 : '\'' :: ("TiO".toList ++ ' ' :: "1".toList ++ '\'' :: ',' ::
        ("4100.00020,-11.472,0.2011,31.0,3.2242,32.0,99.000,99.000,99.000,6.962,0.000,0.000".toList
          ++ [','])) = sampleLine.toList := by decide
    rw [h2]
  unfold findall
  rw [List.append_assoc]
  have hlen : (p ++ (sampleLine.toList ++ s)).length
      = p.length + (sampleLine.toList ++ s).length := by simp
  rw [hlen, findallAux_skip p hp _ _]
  have hlen2 : (sampleLine.toList ++ s).length = (s.length + 89) + 1 := by
    rw [List.length_append]
    have h90 : sampleLine.toList.length = 90 := by decide
    omega
  rw [hlen2, findallAux_match hmatch]
  have hsnil : findallAux (s.length + 89) s = [] := by
    have hskip := findallAux_skip s hsq 89 []
    rw [List.append_nil] at hskip
    rw [hskip, findallAux_nil]
  rw [hsnil]

/-- C4 (amended): embedding the sample line in noise that contains no
single-quote character — and whose suffix does not begin with a
pattern-class character or `]` — yields exactly one raw row, with
`elm_ion = "'TiO 1'"` (quotes retained), and parsing that table gives
`molecule = "TiO"`, `ion_charge = "1"` and `wl_air = "4100.00020"`
(decimal value 4100.0002). Truly arbitrary non-matching noise does not
suffice: class characters after the line extend the greedy match — see
the counterexample. -/
theorem sample_line_scenario (p s : List Char)
    (hp : ∀ c ∈ p, c ≠ '\'') (hsq : ∀ c ∈ s, c ≠ '\'')
    (hs : ∀ c, s.head? = some c → isClassChar c = false ∧ c ≠ ']') :
    findall (p ++ sampleLine.toList ++ s) = [sampleLine.toList] ∧
    rawFromBuffer (p ++ sampleLine.toList ++ s) = .ok sampleTable ∧
    sampleTable.rows.length = 1 ∧
    (sampleTable.rows.headD []).get? 0 = some (some "'TiO 1'") ∧
    parse_transform sampleTable = .ok sampleParsed ∧
    (sampleParsed.rows.headD []).get? 12 = some (some "TiO") ∧
    (sampleParsed.rows.headD []).get? 13 = some (some "1") ∧
    (sampleParsed.rows.headD []).get? 0 = some (some "4100.00020") ∧
    decimalValue? "4100.00020" = some (mkRat 41000002 10000) := by
  have hf := findall_sample_embedded p s hp hsq hs
  refine ⟨hf, ?_, by decide, by decide, by decide, by decide, by decide, by decide,
    by decide⟩
  unfold rawFromBuffer
  rw [hf]
  decide

/-- C4 counterexample: the suffix `"\n5,"` is itself free of pattern
matches, yet appending it to the sample line extends the single greedy
match across the line break, and the raw table gets a second row — the
claim's "exactly one raw row" under arbitrary non-matching surrounding
noise fails. -/
theorem sample_line_noise_counterexample :
    findall "\n5,".toList = [] ∧
    (findall (sampleLine.toList ++ "\n5,".toList)).length = 1 ∧
    rawFromBuffer (sampleLine.toList ++ "\n5,".toList) =
      .ok ⟨vald_columns, sampleTable.rows ++ [[some "5"] ++ List.replicate 12 none]⟩ := by
  refine ⟨by decide, by decide, by decide⟩

/-- C4 witness: the amended scenario with noise prefix `"noise\n"` and
suffix `"x tail"`. -/
theorem sample_line_scenario_witness :
    findall ("noise\n".toList ++ sampleLine.toList ++ "x tail".toList)
      = [sampleLine.toList] ∧
    rawFromBuffer ("noise\n".toList ++ sampleLine.toList ++ "x tail".toList)
      = .ok sampleTable ∧
    sampleTable.rows.length = 1 ∧
    (sampleTable.rows.headD []).get? 0 = some (some "'TiO 1'") ∧
    parse_transform sampleTable = .ok sampleParsed ∧
    (sampleParsed.rows.headD []).get? 12 = some (some "TiO") ∧
    (sampleParsed.rows.headD []).get? 13 = some (some "1") ∧
    (sampleParsed.rows.headD []).get? 0 = some (some "4100.00020") ∧
    decimalValue? "4100.00020" = some (mkRat 41000002 10000) :=
  sample_line_scenario "noise\n".toList "x tail".toList (by decide) (by decide)
    (by intro c hc
        rw [show c = 'x' by simpa using hc.symm]
        exact ⟨rfl, by decide⟩)

/-- C8 witness: the export specification applied to `fetch0` on a fresh
reader, once with no injected failure (both tables written, handle
closed) and once with a failing second put (error propagates, handle
still closed). -/
theorem to_hdf_spec_witness :
    (to_hdf fetch0 reader0 (fun _ => false) []).2.1.closed = true ∧
    (∃ traw tp,
      (to_hdf fetch0 reader0 (fun _ => false) []).2.1.contents =
        [("/vald_raw", traw), ("/vald", tp)]) ∧
    ((to_hdf fetch0 reader0 (fun _ => true) []).1 ≠ .ok ()) ∧
    (to_hdf fetch0 reader0 (fun _ => true) []).2.1.closed = true :=
  have hok := to_hdf_spec fetch0 reader0 (fun _ => false) []
  have hbad := to_hdf_spec fetch0 reader0 (fun _ => true) []
  ⟨hok.1,
   hok.2.2.1 (to_hdf fetch0 reader0 (fun _ => false) []).2.1
     (to_hdf fetch0 reader0 (fun _ => false) []).2.2 (by decide),
   hbad.2.2.2 (Or.inl rfl), hbad.1⟩

end Carsus

